/-
Verification of the numerical core of `smd_handson_fitting.ipynb`.

The notebook's numerical logic is embedded shallowly:
* machine floats become real numbers, except where IEEE non-finiteness is
  the point of a claim, where the minimal type `NpFloat` models numpy's
  behaviour of division producing `inf`/`-inf`/`nan` instead of raising;
* `np.linalg.inv`, which raises `LinAlgError` ("Singular matrix") exactly
  when the matrix is singular, becomes `np_inv`, returning
  `Except FitError _` (the spec's name for the error is
  `SingularMatrixError`);
* the module-level weight matrix `W` captured by `chisquare_over_ndf`
  (defined at notebook top level and *not* a parameter of that function)
  becomes an explicit first argument `globalW`, threaded through
  `linear_least_squares` unchanged, exactly as Python name lookup does.
-/
import Mathlib

open Matrix MeasureTheory

set_option maxHeartbeats 1000000

/-- Error taxonomy of the spec (section 7): `SingularMatrixError` for a
non-invertible matrix passed to the matrix inverse, `DimensionError` for a
shape mismatch among inputs. -/
inductive FitError where
  | singularMatrix
  | dimension
deriving DecidableEq

/-- Minimal model of a numpy floating-point scalar: either a finite real
value or one of the non-finite IEEE values `inf`, `-inf`, `nan`. -/
inductive NpFloat where
  | finite (x : ℝ)
  | posInf
  | negInf
  | nan

/-- `true` on finite values, `false` on `inf`, `-inf` and `nan`. -/
def NpFloat.isFinite : NpFloat → Bool
  | .finite _ => true
  | _ => false

/-- numpy scalar division: dividing a finite value by zero emits a warning
and produces `inf`, `-inf` or `nan` (for `0/0`) — it does not raise. -/
noncomputable def npDiv (a b : ℝ) : NpFloat :=
  if b = 0 then
    if 0 < a then .posInf else if a < 0 then .negInf else .nan
  else .finite (a / b)

/-- `np.linalg.inv`: raises `LinAlgError` (spec: `SingularMatrixError`)
exactly on a singular matrix, otherwise returns the inverse. -/
noncomputable def np_inv {m : ℕ} (M : Matrix (Fin m) (Fin m) ℝ) :
    Except FitError (Matrix (Fin m) (Fin m) ℝ) :=
  if M.det = 0 then .error .singularMatrix else .ok M⁻¹

/-- Source (cell 15):
`cov = np.linalg.inv(A.T @ W @ A); parameters = cov @ A.T @ W @ y;`
`return parameters, cov`. -/
noncomputable def solve_linear_least_squares {n p : ℕ}
    (A : Matrix (Fin n) (Fin p) ℝ) (W : Matrix (Fin n) (Fin n) ℝ)
    (y : Fin n → ℝ) :
    Except FitError ((Fin p → ℝ) × Matrix (Fin p) (Fin p) ℝ) :=
  match np_inv (Aᵀ * W * A) with
  | .error e => .error e
  | .ok cov => .ok ((cov * Aᵀ * W) *ᵥ y, cov)

/-- The weighted sum of squared residuals `(y - Aθ)ᵀ W (y - Aθ)`, the
objective the least-squares solution is claimed to minimize (spec 4.2);
it is also the numerator computed by `chisquare_over_ndf`. -/
noncomputable def wssr {n p : ℕ} (W : Matrix (Fin n) (Fin n) ℝ)
    (A : Matrix (Fin n) (Fin p) ℝ) (y : Fin n → ℝ) (θ : Fin p → ℝ) : ℝ :=
  (y - A *ᵥ θ) ⬝ᵥ W *ᵥ (y - A *ᵥ θ)

/-- Source (cell 9): `np.column_stack([f(x) for f in funcs])` applied to
elementwise (broadcasting) basis functions such as `np.sin`,
`np.cos`, `np.ones_like`: entry `(i, j)` is basis function `j` at
sample `i`.  (The list-level model of `column_stack`, including its
shape check, is `design_matrix` below.) -/
def designMatrix {n p : ℕ} (funcs : Fin p → ℝ → ℝ) (x : Fin n → ℝ) :
    Matrix (Fin n) (Fin p) ℝ :=
  Matrix.of fun i j => funcs j (x i)

/-- Source (cell 17):
`residuals = (y - A @ parameters);`
`sum_residuals = (residuals.T @ W @ residuals);`
`ndf = len(y) - len(parameters); return sum_residuals / ndf`.
The `W` here is the notebook's module-level global (cell 12), not a
parameter of the Python function; it is made the explicit argument
`globalW`.  The division is numpy scalar division. -/
noncomputable def chisquare_over_ndf {n p : ℕ}
    (globalW : Matrix (Fin n) (Fin n) ℝ) (y : Fin n → ℝ)
    (A : Matrix (Fin n) (Fin p) ℝ) (parameters : Fin p → ℝ) : NpFloat :=
  let residuals := y - A *ᵥ parameters
  let sum_residuals := residuals ⬝ᵥ globalW *ᵥ residuals
  npDiv sum_residuals ((n : ℝ) - (p : ℝ))

/-- Source (cell 19): build the design matrix, take `W = inv(cov_y)` when a
covariance is given and the identity otherwise, solve, and score the result
with `chisquare_over_ndf` — which reads the module-level `globalW`, not the
local `W` just computed. -/
noncomputable def linear_least_squares {n p : ℕ}
    (globalW : Matrix (Fin n) (Fin n) ℝ) (x : Fin n → ℝ) (y : Fin n → ℝ)
    (funcs : Fin p → ℝ → ℝ) (cov_y : Option (Matrix (Fin n) (Fin n) ℝ)) :
    Except FitError ((Fin p → ℝ) × Matrix (Fin p) (Fin p) ℝ × NpFloat) :=
  let A := designMatrix funcs x
  match (match cov_y with | some c => np_inv c | none => .ok 1) with
  | .error e => .error e
  | .ok W =>
    match solve_linear_least_squares A W y with
    | .error e => .error e
    | .ok (parameters, cov) =>
      .ok (parameters, cov, chisquare_over_ndf globalW y A parameters)

/-- C1: for every `W` with `M = AᵀWA` invertible, the solver returns
`θ = M⁻¹AᵀW y` and `C = M⁻¹`; and when `W` is in addition symmetric
positive-definite, this `θ` minimizes the weighted sum of squared
residuals. -/
theorem solve_linear_least_squares_correct {n p : ℕ}
    (A : Matrix (Fin n) (Fin p) ℝ) (W : Matrix (Fin n) (Fin n) ℝ)
    (y : Fin n → ℝ) (θ' : Fin p → ℝ)
    (hdet : (Aᵀ * W * A).det ≠ 0) :
    solve_linear_least_squares A W y =
      .ok (((Aᵀ * W * A)⁻¹ * Aᵀ * W) *ᵥ y, (Aᵀ * W * A)⁻¹) ∧
    (Wᵀ = W → (∀ v : Fin n → ℝ, v ≠ 0 → 0 < v ⬝ᵥ W *ᵥ v) →
      wssr W A y (((Aᵀ * W * A)⁻¹ * Aᵀ * W) *ᵥ y) ≤ wssr W A y θ') := by
  have hunit : IsUnit (Aᵀ * W * A).det := isUnit_iff_ne_zero.mpr hdet
  constructor
  · unfold solve_linear_least_squares np_inv
    rw [if_neg hdet]
  · intro hWsym hWpos
    set θ : Fin p → ℝ := ((Aᵀ * W * A)⁻¹ * Aᵀ * W) *ᵥ y with hθ
    -- the normal equations: Aᵀ W (y - A θ) = 0
    have hnormal : Aᵀ *ᵥ (W *ᵥ (y - A *ᵥ θ)) = 0 := by
      have h1 : A *ᵥ θ = (A * ((Aᵀ * W * A)⁻¹ * Aᵀ * W)) *ᵥ y := by
        rw [hθ, mulVec_mulVec]
      have h2 : Aᵀ *ᵥ (W *ᵥ (A *ᵥ θ)) = (Aᵀ * W) *ᵥ y := by
        rw [h1, mulVec_mulVec, mulVec_mulVec]
        have key : (Aᵀ * W * A) * ((Aᵀ * W * A)⁻¹ * (Aᵀ * W)) = Aᵀ * W := by
          rw [← Matrix.mul_assoc, Matrix.mul_nonsing_inv _ hunit, Matrix.one_mul]
        have key2 : Aᵀ * W * (A * ((Aᵀ * W * A)⁻¹ * Aᵀ * W)) = Aᵀ * W := by
          calc Aᵀ * W * (A * ((Aᵀ * W * A)⁻¹ * Aᵀ * W))
              = (Aᵀ * W * A) * ((Aᵀ * W * A)⁻¹ * (Aᵀ * W)) := by
                simp only [Matrix.mul_assoc]
            _ = Aᵀ * W := key
        rw [key2]
      rw [mulVec_sub, Matrix.mulVec_sub, h2, mulVec_mulVec, sub_self]
    -- decomposition: wssr θ' = wssr θ + (A d) ⬝ᵥ W (A d) with d = θ - θ'
    set d : Fin p → ℝ := θ - θ' with hd
    have hresid : y - A *ᵥ θ' = (y - A *ᵥ θ) + A *ᵥ d := by
      rw [hd, Matrix.mulVec_sub]
      abel
    set r : Fin n → ℝ := y - A *ᵥ θ with hr
    have hcross1 : r ⬝ᵥ W *ᵥ (A *ᵥ d) = 0 := by
      rw [mulVec_mulVec, dotProduct_mulVec]
      have : r ᵥ* (W * A) = 0 := by
        have h3 : r ᵥ* (W * A) = ((W * A)ᵀ *ᵥ r) := by
          rw [mulVec_transpose]
        rw [h3, Matrix.transpose_mul, hWsym, ← mulVec_mulVec]
        exact hnormal
      rw [this, zero_dotProduct]
    have hcross2 : (A *ᵥ d) ⬝ᵥ W *ᵥ r = 0 := by
      rw [dotProduct_comm, dotProduct_mulVec]
      have : (W *ᵥ r) ᵥ* A = 0 := by
        have h3 : (W *ᵥ r) ᵥ* A = Aᵀ *ᵥ (W *ᵥ r) := by
          rw [mulVec_transpose]
        rw [h3]
        exact hnormal
      rw [this, zero_dotProduct]
    have hquad : 0 ≤ (A *ᵥ d) ⬝ᵥ W *ᵥ (A *ᵥ d) := by
      by_cases hAd : A *ᵥ d = 0
      · rw [hAd, zero_dotProduct]
      · exact le_of_lt (hWpos _ hAd)
    have hexp : wssr W A y θ' = wssr W A y θ + (A *ᵥ d) ⬝ᵥ W *ᵥ (A *ᵥ d) := by
      unfold wssr
      rw [hresid, ← hr, Matrix.mulVec_add, dotProduct_add, add_dotProduct,
        add_dotProduct, hcross1, hcross2]
      ring
    rw [hexp]
    exact le_add_of_nonneg_right hquad

/-- Witness for C1 at `n = p = 1`, `A = W = 1`, `y = (2)`, `θ' = 0`. -/
theorem solve_linear_least_squares_correct_witness :
    solve_linear_least_squares (1 : Matrix (Fin 1) (Fin 1) ℝ) 1 ![2] =
      .ok ((((1 : Matrix (Fin 1) (Fin 1) ℝ)ᵀ * 1 * 1)⁻¹ * (1 : Matrix (Fin 1) (Fin 1) ℝ)ᵀ * 1) *ᵥ ![2],
        ((1 : Matrix (Fin 1) (Fin 1) ℝ)ᵀ * 1 * 1)⁻¹) ∧
    wssr 1 (1 : Matrix (Fin 1) (Fin 1) ℝ) ![2]
        ((((1 : Matrix (Fin 1) (Fin 1) ℝ)ᵀ * 1 * 1)⁻¹ * (1 : Matrix (Fin 1) (Fin 1) ℝ)ᵀ * 1) *ᵥ ![2]) ≤
      wssr 1 (1 : Matrix (Fin 1) (Fin 1) ℝ) ![2] ![0] := by
  have h := solve_linear_least_squares_correct (1 : Matrix (Fin 1) (Fin 1) ℝ) 1 ![2] ![0]
    (by simp)
  refine ⟨h.1, h.2 (by simp) ?_⟩
  intro v hv
  have hv0 : v 0 ≠ 0 := by
    intro h0
    apply hv
    funext i
    fin_cases i
    exact h0
  have : v ⬝ᵥ (1 : Matrix (Fin 1) (Fin 1) ℝ) *ᵥ v = v 0 * v 0 := by
    simp [Matrix.one_mulVec, Matrix.dotProduct, Fin.sum_univ_one]
  rw [this]
  exact mul_self_pos.mpr hv0

/-- C10: when the number of observations equals the number of parameters the
degrees of freedom are `n - p = 0`; the function divides by zero under numpy
semantics and returns a non-finite value (`inf`, `-inf` or `nan`) instead of
raising an error (it is a total function). -/
theorem chisquare_over_ndf_zero_ndf_nonfinite {n p : ℕ}
    (globalW : Matrix (Fin n) (Fin n) ℝ) (y : Fin n → ℝ)
    (A : Matrix (Fin n) (Fin p) ℝ) (parameters : Fin p → ℝ)
    (h : n = p) :
    (chisquare_over_ndf globalW y A parameters).isFinite = false := by
  subst h
  unfold chisquare_over_ndf npDiv
  rw [sub_self, if_pos rfl]
  split
  · rfl
  · split
    · rfl
    · rfl

/-- Witness for C10 at `n = p = 1`. -/
theorem chisquare_over_ndf_zero_ndf_nonfinite_witness :
    (chisquare_over_ndf (1 : Matrix (Fin 1) (Fin 1) ℝ) ![2] !![1] ![2]).isFinite = false :=
  chisquare_over_ndf_zero_ndf_nonfinite 1 ![2] !![1] ![2] rfl

/- Concrete evaluation helpers for the pipeline at the sample input
`x = (0, 0)`, `y = (0, 2)`, `funcs = [ones]`, `cov_y = None`. -/

lemma designMatrix_const_eval :
    designMatrix ![fun _ => (1:ℝ)] ![0, 0] = Matrix.of fun _ _ => 1 := by
  ext i j
  simp [designMatrix]

lemma normal_matrix_eval :
    ((designMatrix ![fun _ => (1:ℝ)] ![0, 0])ᵀ * (1 : Matrix (Fin 2) (Fin 2) ℝ) *
      designMatrix ![fun _ => (1:ℝ)] ![0, 0]) = Matrix.of fun _ _ => 2 := by
  rw [designMatrix_const_eval, Matrix.mul_one]
  ext i j
  simp [Matrix.mul_apply, Fin.sum_univ_two]

lemma normal_matrix_inv_eval :
    (Matrix.of fun _ _ => (2:ℝ) : Matrix (Fin 1) (Fin 1) ℝ)⁻¹ = (2:ℝ)⁻¹ • 1 := by
  rw [Matrix.inv_def, Matrix.adjugate_fin_one, Matrix.det_fin_one, Ring.inverse_eq_inv]
  rfl

lemma solve_eval :
    solve_linear_least_squares (designMatrix ![fun _ => (1:ℝ)] ![0, 0])
      (1 : Matrix (Fin 2) (Fin 2) ℝ) ![0, 2] = .ok (![1], (2:ℝ)⁻¹ • 1) := by
  have hnp : np_inv ((designMatrix ![fun _ => (1:ℝ)] ![0, 0])ᵀ *
      (1 : Matrix (Fin 2) (Fin 2) ℝ) * designMatrix ![fun _ => (1:ℝ)] ![0, 0]) =
      .ok ((2:ℝ)⁻¹ • 1) := by
    unfold np_inv
    rw [normal_matrix_eval]
    have hdet : (Matrix.of fun _ _ => (2:ℝ) : Matrix (Fin 1) (Fin 1) ℝ).det = 2 := by
      rw [Matrix.det_fin_one]
      rfl
    rw [if_neg (by rw [hdet]; norm_num), normal_matrix_inv_eval]
  have hparam : ((((2:ℝ)⁻¹ • 1 : Matrix (Fin 1) (Fin 1) ℝ) *
      (designMatrix ![fun _ => (1:ℝ)] ![0, 0])ᵀ * (1 : Matrix (Fin 2) (Fin 2) ℝ)) *ᵥ ![0, 2]) = ![1] := by
    rw [designMatrix_const_eval, Matrix.mul_one]
    funext i
    fin_cases i
    norm_num [Matrix.mulVec, Matrix.mul_apply, Matrix.dotProduct, Fin.sum_univ_two,
      Fin.sum_univ_one, Matrix.smul_apply]
  unfold solve_linear_least_squares
  rw [hnp]
  exact congrArg (fun v => Except.ok (v, ((2:ℝ)⁻¹ • 1 : Matrix (Fin 1) (Fin 1) ℝ))) hparam

lemma chisq_smul_eval (c : ℝ) :
    chisquare_over_ndf ((c • 1) : Matrix (Fin 2) (Fin 2) ℝ) ![0, 2]
      (designMatrix ![fun _ => (1:ℝ)] ![0, 0]) ![1] = NpFloat.finite (2 * c) := by
  unfold chisquare_over_ndf npDiv
  rw [designMatrix_const_eval]
  have hres : (![0, 2] - (Matrix.of fun _ _ => (1:ℝ) : Matrix (Fin 2) (Fin 1) ℝ) *ᵥ ![1]) = ![-1, 1] := by
    funext i
    fin_cases i <;>
      norm_num [Matrix.mulVec, Matrix.dotProduct, Fin.sum_univ_one]
  rw [hres]
  have hsum : (![-1, 1] : Fin 2 → ℝ) ⬝ᵥ ((c • 1) : Matrix (Fin 2) (Fin 2) ℝ) *ᵥ ![-1, 1] = 2 * c := by
    simp [Matrix.smul_mulVec_assoc, Matrix.one_mulVec, Matrix.dotProduct,
      Fin.sum_univ_two]
    ring
  simp only [hsum]
  rw [if_neg (by push_cast; norm_num)]
  push_cast
  norm_num

lemma lls_pipeline_eval (globalW : Matrix (Fin 2) (Fin 2) ℝ) :
    linear_least_squares globalW ![0, 0] ![0, 2] ![fun _ => (1:ℝ)] none =
      .ok (![1], (2:ℝ)⁻¹ • 1,
        chisquare_over_ndf globalW ![0, 2] (designMatrix ![fun _ => (1:ℝ)] ![0, 0]) ![1]) := by
  simp only [linear_least_squares]
  rw [solve_eval]

/-- C2 fails on the code: `chisquare_over_ndf` reads the module-level weight
matrix, not the one used in the solve.  At `x = (0,0)`, `y = (0,2)`,
`funcs = [ones]`, `cov_y = None`, the solve uses the identity weight matrix
(residuals `(-1, 1)`, claimed reduced chi-square `2`), but with module-level
`W = 2·I` the code returns `4`. -/
theorem linear_least_squares_chisq_uses_global :
    linear_least_squares (((2:ℝ) • 1) : Matrix (Fin 2) (Fin 2) ℝ) ![0, 0] ![0, 2]
        ![fun _ => (1:ℝ)] none =
      .ok (![1], (2:ℝ)⁻¹ • 1, NpFloat.finite 4) ∧
    chisquare_over_ndf (1 : Matrix (Fin 2) (Fin 2) ℝ) ![0, 2]
        (designMatrix ![fun _ => (1:ℝ)] ![0, 0]) ![1] = NpFloat.finite 2 ∧
    (4:ℝ) ≠ 2 := by
  refine ⟨?_, ?_, by norm_num⟩
  · rw [lls_pipeline_eval, chisq_smul_eval]
    norm_num
  · have h := chisq_smul_eval 1
    rw [one_smul] at h
    rw [h]
    norm_num

/-- C5 fails on the code: with identical explicit arguments, two different
values of the module-level weight matrix give different outputs of
`linear_least_squares` (reduced chi-square `2` versus `4`), so the fit is not
a pure function of its explicit inputs. -/
theorem linear_least_squares_not_pure :
    linear_least_squares (1 : Matrix (Fin 2) (Fin 2) ℝ) ![0, 0] ![0, 2]
        ![fun _ => (1:ℝ)] none ≠
      linear_least_squares (((2:ℝ) • 1) : Matrix (Fin 2) (Fin 2) ℝ) ![0, 0] ![0, 2]
        ![fun _ => (1:ℝ)] none := by
  have h1 := lls_pipeline_eval (1 : Matrix (Fin 2) (Fin 2) ℝ)
  have h2 := lls_pipeline_eval (((2:ℝ) • 1) : Matrix (Fin 2) (Fin 2) ℝ)
  have hc1 := chisq_smul_eval 1
  rw [one_smul] at hc1
  rw [hc1] at h1
  rw [chisq_smul_eval] at h2
  rw [h1, h2]
  intro hcontra
  injection hcontra with h6
  have h7 := congrArg (fun t => t.2.2) h6
  dsimp only at h7
  injection h7 with h8
  norm_num at h8

/-- C6 counterexample: a weight matrix with a negative eigenvalue does not
make the solver fail.  With `A = (1)`, `W = (-1)` (eigenvalue `-1`,
witnessed by the negative quadratic form) and `y = (1)`, `AᵀWA = (-1)` is
invertible, so the solver returns the estimate `θ = (1)`,
`C = (-1)` instead of raising `SingularMatrixError`. -/
theorem solve_linear_least_squares_negative_weight_no_error :
    solve_linear_least_squares !![(1:ℝ)] !![(-1:ℝ)] ![1] = .ok (![1], !![(-1:ℝ)]) ∧
    (![1] : Fin 1 → ℝ) ⬝ᵥ !![(-1:ℝ)] *ᵥ ![1] < 0 := by
  constructor
  · have hM : (!![(1:ℝ)]ᵀ * !![(-1:ℝ)] * !![(1:ℝ)]) = !![(-1:ℝ)] := by
      ext i j
      fin_cases i
      fin_cases j
      simp [Matrix.mul_apply, Fin.sum_univ_one]
    have hnp : np_inv (!![(1:ℝ)]ᵀ * !![(-1:ℝ)] * !![(1:ℝ)]) = .ok !![(-1:ℝ)] := by
      unfold np_inv
      rw [hM]
      have hdet : (!![(-1:ℝ)]).det = -1 := by
        rw [Matrix.det_fin_one]
        rfl
      rw [if_neg (by rw [hdet]; norm_num)]
      have hinv : (!![(-1:ℝ)])⁻¹ = !![(-1:ℝ)] := by
        rw [Matrix.inv_def, Matrix.adjugate_fin_one, hdet, Ring.inverse_eq_inv]
        ext i j
        fin_cases i
        fin_cases j
        norm_num
      rw [hinv]
    have hparam : ((!![(-1:ℝ)] * !![(1:ℝ)]ᵀ * !![(-1:ℝ)]) *ᵥ ![1]) = ![1] := by
      funext i
      fin_cases i
      norm_num [Matrix.mulVec, Matrix.mul_apply, Matrix.dotProduct, Fin.sum_univ_one,
        Matrix.vecHead, Matrix.vecTail]
    unfold solve_linear_least_squares
    rw [hnp]
    exact congrArg (fun v => Except.ok (v, !![(-1:ℝ)])) hparam
  · norm_num [Matrix.mulVec, Matrix.dotProduct, Fin.sum_univ_one]

/-- C6 amended: the solver raises `SingularMatrixError` exactly when
`AᵀWA` is singular; in particular a design matrix with two identical
columns always raises it.  (A weight matrix with a zero or negative
eigenvalue does not by itself cause a failure — see the counterexample.) -/
theorem solve_linear_least_squares_singular_iff {n p : ℕ}
    (A : Matrix (Fin n) (Fin p) ℝ) (W : Matrix (Fin n) (Fin n) ℝ) (y : Fin n → ℝ) :
    (solve_linear_least_squares A W y = .error .singularMatrix ↔ (Aᵀ * W * A).det = 0) ∧
    (∀ j₁ j₂ : Fin p, j₁ ≠ j₂ → (∀ i, A i j₁ = A i j₂) →
      solve_linear_least_squares A W y = .error .singularMatrix) := by
  have herror : ∀ (hd : (Aᵀ * W * A).det = 0),
      solve_linear_least_squares A W y = .error .singularMatrix := by
    intro hd
    unfold solve_linear_least_squares np_inv
    rw [if_pos hd]
  constructor
  · by_cases hd : (Aᵀ * W * A).det = 0
    · exact ⟨fun _ => hd, fun _ => herror hd⟩
    · refine ⟨fun hcontra => ?_, fun hdet => absurd hdet hd⟩
      unfold solve_linear_least_squares np_inv at hcontra
      rw [if_neg hd] at hcontra
      exact Except.noConfusion hcontra
  · intro j₁ j₂ hne hdup
    have hAv : A *ᵥ (Pi.single j₁ (1:ℝ) - Pi.single j₂ (1:ℝ)) = 0 := by
      rw [Matrix.mulVec_sub, Matrix.mulVec_single, Matrix.mulVec_single]
      funext i
      simp [hdup i]
    have hv : ((Pi.single j₁ 1 : Fin p → ℝ) - (Pi.single j₂ 1 : Fin p → ℝ)) ≠ 0 := by
      intro h0
      have h1 := congrFun h0 j₁
      simp [Pi.single_eq_same, Pi.single_eq_of_ne hne] at h1
    have hdet0 : (Aᵀ * W * A).det = 0 := by
      rw [← Matrix.exists_mulVec_eq_zero_iff]
      refine ⟨_, hv, ?_⟩
      rw [← mulVec_mulVec, hAv, Matrix.mulVec_zero]
    exact herror hdet0

/-- Witness for the duplicate-column part of the amended C6:
`A = (1 1)` (one observation, two identical columns) raises
`SingularMatrixError`. -/
theorem solve_linear_least_squares_singular_iff_witness :
    solve_linear_least_squares !![(1:ℝ), 1] !![(1:ℝ)] ![1] = .error .singularMatrix :=
  (solve_linear_least_squares_singular_iff !![(1:ℝ), 1] !![(1:ℝ)] ![1]).2 0 1
    (by decide) (by intro i; fin_cases i; simp)

namespace Muon

/-!
Binned Poisson-likelihood fit for the muon-lifetime histogram (cell 50).
`T_MIN` and `T_MAX` are taken from the external data file
(`T_MIN = t[5] = 5/21.48 > 0`, `T_MAX = t[-1] > T_MIN`); they appear here
as parameters `tmin`, `tmax` with exactly those constraints.
-/

/-- scipy `expon.cdf(x, scale=tau)`: `1 - exp(-x/tau)` for `x ≥ 0`,
`0` below the support. -/
noncomputable def expon_cdf (tau x : ℝ) : ℝ :=
  if x < 0 then 0 else 1 - Real.exp (-(x / tau))

/-- scipy `uniform.cdf(x, loc, scale)`: the uniform distribution on
`[loc, loc + scale]` — `0` below `loc`, `(x - loc)/scale` on the support,
`1` above `loc + scale`. -/
noncomputable def uniform_cdf (loc scale x : ℝ) : ℝ :=
  max 0 (min 1 ((x - loc) / scale))

/-- Source (cell 50):
`cdf_min, cdf_max = expon.cdf([T_MIN, T_MAX], scale=tau);`
`norm = 1 / (cdf_max - cdf_min);`
`signal = p * expon.cdf(x, scale=tau) * norm;`
`background = (1 - p) * uniform.cdf(x, T_MIN, T_MAX);`
`return signal + background`.
Note the `uniform.cdf` call passes `T_MAX` as scipy's `scale` argument,
so the background is uniform on `[T_MIN, T_MIN + T_MAX]`, not on
`[T_MIN, T_MAX]`. -/
noncomputable def cdf (tmin tmax x tau p : ℝ) : ℝ :=
  let cdf_min := expon_cdf tau tmin
  let cdf_max := expon_cdf tau tmax
  let norm := 1 / (cdf_max - cdf_min)
  p * expon_cdf tau x * norm + (1 - p) * uniform_cdf tmin tmax x

/-- C3 fails on the code: over the histogram range the model CDF difference
is `p + (1-p)·(T_MAX - T_MIN)/T_MAX`, which is strictly below `1` whenever
`p < 1` and `T_MIN > 0` (and in the notebook `T_MIN = 5/21.48 > 0`).  The
uniform background passes `T_MAX` as scipy's `scale` parameter, so its mass
on `[T_MIN, T_MAX]` is `(T_MAX - T_MIN)/T_MAX`, not `1`. -/
theorem cdf_not_normalized (tmin tmax tau p : ℝ)
    (h0 : 0 < tmin) (h1 : tmin < tmax) (htau : 0 < tau) (hp : p < 1) :
    cdf tmin tmax tmax tau p - cdf tmin tmax tmin tau p =
      p + (1 - p) * ((tmax - tmin) / tmax) ∧
    cdf tmin tmax tmax tau p - cdf tmin tmax tmin tau p < 1 := by
  have htmax : 0 < tmax := lt_trans h0 h1
  have he_min : expon_cdf tau tmin = 1 - Real.exp (-(tmin / tau)) :=
    if_neg (not_lt.mpr (le_of_lt h0))
  have he_max : expon_cdf tau tmax = 1 - Real.exp (-(tmax / tau)) :=
    if_neg (not_lt.mpr (le_of_lt htmax))
  have hD : expon_cdf tau tmax - expon_cdf tau tmin =
      Real.exp (-(tmin / tau)) - Real.exp (-(tmax / tau)) := by
    rw [he_min, he_max]
    ring
  have hDpos : 0 < Real.exp (-(tmin / tau)) - Real.exp (-(tmax / tau)) := by
    have hlt : -(tmax / tau) < -(tmin / tau) := by
      apply neg_lt_neg
      gcongr
    exact sub_pos.mpr (Real.exp_lt_exp.mpr hlt)
  have hDne : expon_cdf tau tmax - expon_cdf tau tmin ≠ 0 := by
    rw [hD]
    exact ne_of_gt hDpos
  have hr0 : 0 < (tmax - tmin) / tmax := div_pos (sub_pos.mpr h1) htmax
  have hr1 : (tmax - tmin) / tmax < 1 := by
    rw [div_lt_one htmax]
    linarith
  have hu_max : uniform_cdf tmin tmax tmax = (tmax - tmin) / tmax := by
    unfold uniform_cdf
    rw [min_eq_right (le_of_lt hr1), max_eq_right (le_of_lt hr0)]
  have hu_min : uniform_cdf tmin tmax tmin = 0 := by
    unfold uniform_cdf
    rw [sub_self, zero_div, min_eq_right zero_le_one, max_self]
  have heq : cdf tmin tmax tmax tau p - cdf tmin tmax tmin tau p =
      p + (1 - p) * ((tmax - tmin) / tmax) := by
    simp only [cdf]
    rw [hu_max, hu_min]
    field_simp
    ring
  refine ⟨heq, ?_⟩
  rw [heq]
  have h1p : 0 < 1 - p := sub_pos.mpr hp
  have : (1 - p) * ((tmax - tmin) / tmax) < (1 - p) * 1 :=
    mul_lt_mul_of_pos_left hr1 h1p
  linarith

/-- Witness for C3's failing evaluation: with `T_MIN = 1`, `T_MAX = 2`,
`tau = 1`, `p = 0` the CDF difference over the range is `1/2`, not `1`. -/
theorem cdf_not_normalized_witness :
    cdf 1 2 2 1 0 - cdf 1 2 1 1 0 = 0 + (1 - 0) * ((2 - 1) / 2) ∧
    cdf 1 2 2 1 0 - cdf 1 2 1 1 0 < 1 :=
  cdf_not_normalized 1 2 1 0 (by norm_num) (by norm_num) (by norm_num) (by norm_num)

end Muon

namespace Higgs

/-- Lower edge of the detector range (cell 33). -/
def E_MIN : ℝ := 75

/-- Upper edge of the detector range (cell 33). -/
def E_MAX : ℝ := 175

/-- scipy `norm.pdf(x, mean, std)`: the Gaussian density
`(std·√(2π))⁻¹ · exp(-(x-mean)²/(2·std²))`. -/
noncomputable def norm_pdf (x mean std : ℝ) : ℝ :=
  (Real.sqrt (2 * Real.pi * std ^ 2))⁻¹ * Real.exp (-(x - mean) ^ 2 / (2 * std ^ 2))

/-- scipy `expon.pdf(x, scale=tau)`: `(1/tau)·exp(-x/tau)` for `x ≥ 0`,
`0` below the support. -/
noncomputable def expon_pdf (tau x : ℝ) : ℝ :=
  if x < 0 then 0 else (1 / tau) * Real.exp (-(x / tau))

/-- Source (cell 35):
`mass_peak = p * norm.pdf(x, mean, std);`
`expon_norm = np.exp(-E_MIN / tau) - np.exp(-E_MAX / tau);`
`background = (1 - p) / expon_norm * expon.pdf(x, scale=tau);`
`return mass_peak + background`.
The exponential background is renormalized to the window
`[E_MIN, E_MAX]`; the Gaussian signal deliberately is not (the notebook
assumes it is "fully contained in the measurement interval"). -/
noncomputable def pdf (x mean std tau p : ℝ) : ℝ :=
  let mass_peak := p * norm_pdf x mean std
  let expon_norm := Real.exp (-(E_MIN / tau)) - Real.exp (-(E_MAX / tau))
  let background := (1 - p) / expon_norm * expon_pdf tau x
  mass_peak + background

lemma expon_norm_pos {tau : ℝ} (htau : 0 < tau) :
    0 < Real.exp (-(E_MIN / tau)) - Real.exp (-(E_MAX / tau)) := by
  have hEE : E_MIN / tau < E_MAX / tau := by
    have h1 : E_MIN < E_MAX := by norm_num [E_MIN, E_MAX]
    gcongr
  exact sub_pos.mpr (Real.exp_lt_exp.mpr (neg_lt_neg hEE))

lemma norm_pdf_nonneg (x mean std : ℝ) : 0 ≤ norm_pdf x mean std := by
  unfold norm_pdf
  positivity

lemma expon_pdf_nonneg {tau : ℝ} (htau : 0 < tau) (x : ℝ) : 0 ≤ expon_pdf tau x := by
  unfold expon_pdf
  split
  · exact le_refl 0
  · positivity

lemma norm_pdf_eq_gaussian (x : ℝ) :
    norm_pdf x 126 5 = ProbabilityTheory.gaussianPDFReal 126 25 x := by
  unfold norm_pdf ProbabilityTheory.gaussianPDFReal
  norm_num

/-- C4 amended: for `tau > 0`, the composite density integrates over
`[E_MIN, E_MAX]` to `p·(Gaussian mass in the window) + (1 - p)`: the
truncated exponential background is exactly normalized, while the Gaussian
signal is left untruncated, so the total is `1` only up to the signal's
tail mass outside the window (exactly `1` when `p = 0`). -/
theorem pdf_integral_decomposition (mean std tau p : ℝ) (htau : 0 < tau) :
    ∫ x in E_MIN..E_MAX, pdf x mean std tau p =
      p * (∫ x in E_MIN..E_MAX, norm_pdf x mean std) + (1 - p) := by
  have hEE : E_MIN < E_MAX := by norm_num [E_MIN, E_MAX]
  have hD := expon_norm_pos htau
  have hDne : Real.exp (-(E_MIN / tau)) - Real.exp (-(E_MAX / tau)) ≠ 0 := ne_of_gt hD
  have hcont_norm : Continuous fun x => norm_pdf x mean std := by
    unfold norm_pdf
    continuity
  have hcont_exp : Continuous fun x : ℝ => (1 / tau) * Real.exp (-(x / tau)) := by
    continuity
  have hEq : Set.EqOn (fun x => pdf x mean std tau p)
      (fun x => p * norm_pdf x mean std +
        ((1 - p) / (Real.exp (-(E_MIN / tau)) - Real.exp (-(E_MAX / tau)))) *
          ((1 / tau) * Real.exp (-(x / tau)))) (Set.uIcc E_MIN E_MAX) := by
    intro x hx
    rw [Set.uIcc_of_le (le_of_lt hEE)] at hx
    have hx0 : ¬ x < 0 := by
      have h1 := hx.1
      have h2 : (0:ℝ) < E_MIN := by norm_num [E_MIN]
      exact not_lt.mpr (by linarith)
    simp only [pdf, expon_pdf, if_neg hx0]
  rw [intervalIntegral.integral_congr hEq]
  rw [intervalIntegral.integral_add ((continuous_const.mul hcont_norm).intervalIntegrable _ _)
    ((continuous_const.mul hcont_exp).intervalIntegrable _ _)]
  rw [intervalIntegral.integral_const_mul, intervalIntegral.integral_const_mul]
  have hFTC : ∫ x in E_MIN..E_MAX, (1 / tau) * Real.exp (-(x / tau)) =
      Real.exp (-(E_MIN / tau)) - Real.exp (-(E_MAX / tau)) := by
    have hderiv : ∀ x ∈ Set.uIcc E_MIN E_MAX,
        HasDerivAt (fun t => -Real.exp (-(t / tau))) ((1 / tau) * Real.exp (-(x / tau))) x := by
      intro x _
      have h1 : HasDerivAt (fun t : ℝ => -(t / tau)) (-(1 / tau)) x :=
        ((hasDerivAt_id x).div_const tau).neg
      have h2 := (h1.exp).neg
      convert h2 using 1
      ring
    rw [intervalIntegral.integral_eq_sub_of_hasDerivAt hderiv (hcont_exp.intervalIntegrable _ _)]
    ring
  rw [hFTC, div_mul_cancel₀ _ hDne]

/-- Witness for the amended C4 at the notebook's fitted parameters
(`mean = 126`, `std = 5`, `tau = 50`) and `p = 1/2`. -/
theorem pdf_integral_decomposition_witness :
    ∫ x in E_MIN..E_MAX, pdf x 126 5 50 (1/2) =
      (1/2) * (∫ x in E_MIN..E_MAX, norm_pdf x 126 5) + (1 - 1/2) :=
  pdf_integral_decomposition 126 5 50 (1/2) (by norm_num)

/-- C4 counterexample: at `p = 1` (a valid mixture weight) the composite
density is the untruncated Gaussian, whose mass in `[75, 175]` is strictly
below `1` — the claim that the integral is exactly `1` fails. -/
theorem pdf_integral_ne_one :
    (∫ x in E_MIN..E_MAX, pdf x 126 5 50 1) ≠ 1 := by
  have hpt : ∀ x : ℝ, pdf x 126 5 50 1 = norm_pdf x 126 5 := by
    intro x
    norm_num [pdf]
  have hint : MeasureTheory.Integrable (ProbabilityTheory.gaussianPDFReal 126 25) :=
    ProbabilityTheory.integrable_gaussianPDFReal 126 25
  have htot : ∫ x, ProbabilityTheory.gaussianPDFReal 126 25 x = 1 :=
    ProbabilityTheory.integral_gaussianPDFReal_eq_one 126 (by norm_num)
  have hpos : ∀ x, 0 < ProbabilityTheory.gaussianPDFReal 126 25 x := fun x =>
    ProbabilityTheory.gaussianPDFReal_pos 126 25 x (by norm_num)
  have hnn : ∀ x, 0 ≤ ProbabilityTheory.gaussianPDFReal 126 25 x := fun x => le_of_lt (hpos x)
  have hsplit := intervalIntegral.integral_add_adjacent_intervals
    (a := (75:ℝ)) (b := (175:ℝ)) (c := (176:ℝ)) hint.intervalIntegrable hint.intervalIntegrable
  have hmid : 0 < ∫ x in (175:ℝ)..176, ProbabilityTheory.gaussianPDFReal 126 25 x :=
    intervalIntegral.intervalIntegral_pos_of_pos hint.intervalIntegrable hpos (by norm_num)
  have hle : (∫ x in (75:ℝ)..176, ProbabilityTheory.gaussianPDFReal 126 25 x) ≤ 1 := by
    rw [intervalIntegral.integral_of_le (by norm_num : (75:ℝ) ≤ 176)]
    calc ∫ x in Set.Ioc (75:ℝ) 176, ProbabilityTheory.gaussianPDFReal 126 25 x
        ≤ ∫ x, ProbabilityTheory.gaussianPDFReal 126 25 x :=
          MeasureTheory.setIntegral_le_integral hint (MeasureTheory.ae_of_all _ hnn)
      _ = 1 := htot
  have hlt : (∫ x in (75:ℝ)..175, ProbabilityTheory.gaussianPDFReal 126 25 x) < 1 := by
    linarith
  have hEq2 : (∫ x in E_MIN..E_MAX, pdf x 126 5 50 1) =
      ∫ x in (75:ℝ)..175, ProbabilityTheory.gaussianPDFReal 126 25 x :=
    intervalIntegral.integral_congr (fun x _ => by rw [hpt, norm_pdf_eq_gaussian])
  rw [hEq2]
  exact ne_of_lt hlt

end Higgs

namespace Higgs

lemma sum_map_eq_range_sum (f : ℝ → ℝ) (l : List ℝ) :
    (l.map f).sum = ∑ i ∈ Finset.range l.length, f (l.getD i 0) := by
  induction l with
  | nil => simp
  | cons a t ih =>
    rw [List.map_cons, List.sum_cons, List.length_cons, Finset.sum_range_succ']
    simp [List.getD_cons_succ, List.getD_cons_zero, ih, add_comm]

/-- Source (cell 37):
`return -np.sum(np.log(pdf(data, *parameters) + 1e-30))`, where the
parameter vector unpacks as `(mean, std, tau, p)` (the order of the
initial guess in cell 40). -/
noncomputable def neg_log_likelihood (mean std tau p : ℝ) (data : List ℝ) : ℝ :=
  -((data.map (fun x => Real.log (pdf x mean std tau p + 1e-30))).sum)

/-- C7: the negative log-likelihood is exactly
`-∑ i, log(pdf(xᵢ) + 1e-30)`, and for any valid parameter vector
(`tau > 0`, `p ∈ [0,1]`) the logarithm's argument is strictly positive at
every point, so the result is defined even where the density vanishes
(e.g. `p = 0`). -/
theorem neg_log_likelihood_correct (mean std tau p : ℝ) (data : List ℝ) :
    neg_log_likelihood mean std tau p data =
      -(∑ i ∈ Finset.range data.length,
        Real.log (pdf (data.getD i 0) mean std tau p + 1e-30)) ∧
    (0 < tau → 0 ≤ p → p ≤ 1 → ∀ x : ℝ, 0 < pdf x mean std tau p + 1e-30) := by
  constructor
  · unfold neg_log_likelihood
    rw [sum_map_eq_range_sum]
  · intro htau hp0 hp1 x
    have hnn : 0 ≤ pdf x mean std tau p := by
      simp only [pdf]
      apply add_nonneg
      · exact mul_nonneg hp0 (norm_pdf_nonneg x mean std)
      · exact mul_nonneg
          (div_nonneg (by linarith) (le_of_lt (expon_norm_pos htau)))
          (expon_pdf_nonneg htau x)
    have heps : (0:ℝ) < 1e-30 := by norm_num
    linarith

/-- Witness for C7 at `parameters = (126, 5, 50, 0)` (zero mixture weight,
where the raw density can vanish) and `data = [100, 150]`. -/
theorem neg_log_likelihood_correct_witness :
    neg_log_likelihood 126 5 50 0 [100, 150] =
      -(∑ i ∈ Finset.range (([100, 150] : List ℝ).length),
        Real.log (pdf (([100, 150] : List ℝ).getD i 0) 126 5 50 0 + 1e-30)) ∧
    (0:ℝ) < pdf 130 126 5 50 0 + 1e-30 :=
  ⟨(neg_log_likelihood_correct 126 5 50 0 [100, 150]).1,
   (neg_log_likelihood_correct 126 5 50 0 [100, 150]).2
     (by norm_num) (by norm_num) (by norm_num) 130⟩

end Higgs

/-- Result record of the external minimizer (spec section 9 interface:
`minimize(objective, initial_guess, bounds) -> (parameters, converged,
diagnostics)`); scipy's `OptimizeResult` carries the final iterate `x` and
the `success` flag. -/
structure OptimizeResult (k : ℕ) where
  x : Fin k → ℝ
  success : Bool

/-- Source (cells 40-41): the notebook takes `result = minimize(...)` and
immediately computes `cov = np.linalg.inv(hesse(result.x, measured))`; the
`success` flag of the result is never inspected. -/
noncomputable def hessian_covariance {k : ℕ} (result : OptimizeResult k)
    (hesse : (Fin k → ℝ) → Matrix (Fin k) (Fin k) ℝ) :
    Except FitError ((Fin k → ℝ) × Matrix (Fin k) (Fin k) ℝ) :=
  match np_inv (hesse result.x) with
  | .error e => .error e
  | .ok cov => .ok (result.x, cov)

/-- C8 counterexample: for a minimizer result with `success = false` the
notebook still produces a parameter estimate and a covariance matrix — it
does not raise any `ConvergenceError` and does not discard the partial
computation. -/
theorem hessian_covariance_failed_fit_returns_estimate :
    (OptimizeResult.mk ![130, 2, 30, 0.2] false).success = false ∧
    hessian_covariance (OptimizeResult.mk ![130, 2, 30, 0.2] false) (fun _ => 1) =
      .ok (![130, 2, 30, 0.2], 1) := by
  refine ⟨rfl, ?_⟩
  unfold hessian_covariance np_inv
  rw [if_neg (by simp : ¬ ((fun _ : Fin 4 → ℝ => (1 : Matrix (Fin 4) (Fin 4) ℝ))
    (![130, 2, 30, 0.2])).det = 0)]
  rw [show ((fun _ : Fin 4 → ℝ => (1 : Matrix (Fin 4) (Fin 4) ℝ))
    (![130, 2, 30, 0.2]))⁻¹ = 1 from inv_one]

/-- C8 amended: the fit result is post-processed without any convergence
check: the covariance step depends only on the returned iterate, never on
the `success` flag, so a non-converged minimize call yields the same
estimate and covariance as a converged one at the same iterate. -/
theorem hessian_covariance_ignores_success {k : ℕ} (result : OptimizeResult k)
    (hesse : (Fin k → ℝ) → Matrix (Fin k) (Fin k) ℝ) (b : Bool) :
    hessian_covariance result hesse =
      hessian_covariance (OptimizeResult.mk result.x b) hesse := rfl

/-- numpy `np.column_stack(cols)`: fails (`ValueError`, the spec's
`DimensionError`) when the column list is empty or when two columns have
different lengths; otherwise returns the matrix whose rows collect the
column entries. -/
def column_stack (cols : List (List ℝ)) : Except FitError (List (List ℝ)) :=
  match cols with
  | [] => .error .dimension
  | c :: rest =>
    if (c :: rest).all (fun d => d.length == c.length) then
      .ok ((List.range c.length).map (fun i => (c :: rest).map (fun d => d.getD i 0)))
    else .error .dimension

/-- Source (cell 9): `np.column_stack([f(x) for f in funcs])`, at the level
of the numpy arrays involved: each basis function maps the sample array to
an output array, and the outputs are stacked as columns. -/
def design_matrix (funcs : List (List ℝ → List ℝ)) (x : List ℝ) :
    Except FitError (List (List ℝ)) :=
  column_stack (funcs.map (fun f => f x))

lemma getD_map_lt (h : ℝ → ℝ) (x : List ℝ) (i : ℕ) (hi : i < x.length) :
    (x.map h).getD i 0 = h (x.getD i 0) := by
  simp [List.getD_eq_getElem?_getD, List.getElem?_map, List.getElem?_eq_getElem hi]

/-- C9 counterexample: when every basis function returns the same wrong
length (here 3, while the sample sequence has length `N = 2`), the code
returns a 3×2 matrix instead of failing with `DimensionError` — the shape
check of `column_stack` only compares the outputs with each other, not
with `N`. -/
theorem design_matrix_wrong_common_shape_no_error :
    design_matrix [fun _ => ([1, 1, 1] : List ℝ), fun _ => [2, 2, 2]] [0, 0] =
      .ok [[1, 2], [1, 2], [1, 2]] ∧
    ([1, 1, 1] : List ℝ).length ≠ ([0, 0] : List ℝ).length := by
  constructor
  · rfl
  · decide

/-- C9 amended: for elementwise basis functions the design matrix is the
`N×P` matrix with entry `(i, j)` equal to basis function `j` at sample `i`
(and building it has no side effects — it is a pure function); the
`DimensionError` failure occurs exactly when two basis-function outputs
have different lengths (numpy only checks the columns against each other,
so outputs sharing a wrong common length are not caught). -/
theorem design_matrix_correct (g : ℝ → ℝ) (gs : List (ℝ → ℝ)) (x : List ℝ)
    (f : List ℝ → List ℝ) (fs : List (List ℝ → List ℝ)) :
    design_matrix ((g :: gs).map (fun h xs => xs.map h)) x =
      .ok ((List.range x.length).map (fun i =>
        (g :: gs).map (fun h => h (x.getD i 0)))) ∧
    (design_matrix (f :: fs) x = .error .dimension ↔
      ∃ fbad ∈ f :: fs, (fbad x).length ≠ (f x).length) := by
  have column_stack_cons : ∀ (c : List ℝ) (rest : List (List ℝ)),
      column_stack (c :: rest) =
        if ((c :: rest).all fun d => d.length == c.length) = true then
          Except.ok ((List.range c.length).map
            (fun i => (c :: rest).map (fun d => d.getD i 0)))
        else Except.error FitError.dimension := fun c rest => rfl
  constructor
  · have hcols : ((g :: gs).map (fun h : ℝ → ℝ => fun xs : List ℝ => xs.map h)).map
        (fun q => q x) = (x.map g) :: gs.map (fun h => x.map h) := by
      simp [List.map_map, Function.comp]
    unfold design_matrix
    rw [hcols, column_stack_cons]
    have hall : (((x.map g) :: gs.map (fun h => x.map h)).all
        (fun d => d.length == (x.map g).length)) = true := by
      simp [List.all_eq_true, List.mem_cons, List.mem_map, List.length_map]
    rw [if_pos hall, List.length_map]
    apply congrArg
    apply List.map_congr_left
    intro i hi
    have hi' : i < x.length := List.mem_range.mp hi
    simp only [List.map_cons, List.map_map, Function.comp]
    congr 1
    · exact getD_map_lt g x i hi'
    · apply List.map_congr_left
      intro h _
      exact getD_map_lt h x i hi'
  · have hcols2 : ((f :: fs).map (fun q => q x)) = (f x) :: fs.map (fun q => q x) :=
      List.map_cons _ _ _
    unfold design_matrix
    rw [hcols2, column_stack_cons]
    by_cases hc : (((f x) :: fs.map (fun q => q x)).all
        (fun d => d.length == (f x).length)) = true
    · rw [if_pos hc]
      refine iff_of_false (fun h => Except.noConfusion h) ?_
      rintro ⟨fbad, hfbad, hlen⟩
      apply hlen
      have hforall := List.all_eq_true.mp hc
      rcases List.mem_cons.mp hfbad with h1 | h1
      · rw [h1]
      · have hmem : fbad x ∈ (f x) :: fs.map (fun q => q x) :=
          List.mem_cons_of_mem _ (List.mem_map_of_mem _ h1)
        exact eq_of_beq (hforall _ hmem)
    · rw [if_neg hc]
      refine iff_of_true rfl ?_
      rw [List.all_eq_true] at hc
      push_neg at hc
      rcases hc with ⟨d, hd, hne⟩
      rcases List.mem_cons.mp hd with h1 | h1
      · exact absurd (by rw [h1]; exact beq_self_eq_true _) hne
      · rcases List.mem_map.mp h1 with ⟨fbad, hfbad, rfl⟩
        exact ⟨fbad, List.mem_cons_of_mem _ hfbad, fun he => hne (beq_iff_eq.mpr he)⟩
